import Mathlib

/-!
Verification of the Suno download post-processing script
(`process_downloads.py`).  The script is embedded shallowly: file names are
`String`s, the directory content is a `List String` of names, the outcomes of
the external collaborators (ffmpeg, the mutagen tag writer, `unlink`) are
oracles collected in an `Env` record, and every function of the script becomes
an executable Lean definition mirroring its control flow.
-/

namespace Suno

/-! ## Path-name primitives (Python `pathlib` fragment used by the script) -/

/-- Index of the last occurrence of `'.'` in a character list, if any. -/
def lastDotIdx : List Char → Option Nat
  | [] => none
  | c :: rest =>
    match lastDotIdx rest with
    | some i => some (i + 1)
    | none => if c = '.' then some 0 else none

/-- Python `Path(name).suffix`: the substring from the last dot on, provided
the last dot is neither the first nor the last character; otherwise `""`. -/
def pathSuffix (name : String) : String :=
  match lastDotIdx name.data with
  | some i =>
    if 0 < i ∧ i + 1 < name.data.length then ⟨name.data.drop i⟩ else ""
  | none => ""

/-- Python `Path(name).stem`: the part of the name before `pathSuffix`,
or the whole name when the suffix is empty. -/
def pathStem (name : String) : String :=
  match lastDotIdx name.data with
  | some i =>
    if 0 < i ∧ i + 1 < name.data.length then ⟨name.data.take i⟩ else name
  | none => name

/-- Python `Path(name).with_suffix(ext)`: the stem with the new extension. -/
def withSuffix (name ext : String) : String :=
  pathStem name ++ ext

/-- Python `str.lower()` restricted to ASCII, which covers every extension the
script compares. -/
def strToLower (s : String) : String :=
  ⟨s.data.map Char.toLower⟩

/-- Python `str.replace(pat, repl)` on character lists: scan left to right,
replacing each non-overlapping occurrence of `pat` and resuming after it.
The fuel argument (instantiated with the list length) only serves
termination; one character or one whole match is consumed per step. -/
def pyReplaceAux (pat repl : List Char) : Nat → List Char → List Char
  | _, [] => []
  | 0, s => s
  | fuel + 1, c :: s =>
    if pat.isPrefixOf (c :: s) then
      repl ++ pyReplaceAux pat repl fuel ((c :: s).drop pat.length)
    else
      c :: pyReplaceAux pat repl fuel s

/-- Python `s.replace(pat, repl)` for a non-empty pattern (the script only
calls it with pattern `"_tags"`). -/
def pyReplace (s pat repl : String) : String :=
  ⟨pyReplaceAux pat.data repl.data s.data.length s.data⟩

/-! ## Triplet matcher (`find_triplets`) -/

/-- A processing unit as built by `find_triplets`: the audio asset, the
metadata sidecar, and the optional cover image. -/
structure Triplet where
  audio : String
  tags : String
  cover : Option String
deriving DecidableEq, Repr

/-- The fixed, ordered audio extension list of `find_triplets`. -/
def audioExts : List String := [".m4a", ".mp4", ".mp3", ".flac"]

/-- The fixed, ordered cover extension list of `find_triplets`. -/
def coverExts : List String := [".jpeg", ".jpg", ".png", ".webp"]

/-- The extension loop of `find_triplets`: try `base ++ ext` for each `ext`
in order and return the first candidate present in the directory. -/
def firstExisting (files : List String) (base : String) : List String → Option String
  | [] => none
  | ext :: rest =>
    if base ++ ext ∈ files then some (base ++ ext) else firstExisting files base rest

/-- Whether a name is matched by the glob pattern `*_tags.json`. -/
def sidecarMatch (n : String) : Bool :=
  List.isSuffixOf "_tags.json".data n.data

/-- The base name computed by `find_triplets`:
`json_file.stem.replace("_tags", "")`. -/
def base_name_of (json_file : String) : String :=
  pyReplace (pathStem json_file) "_tags" ""

/-- Loop body of `find_triplets` for one sidecar: resolve an audio asset and
an optional cover by first-match-wins; without an audio asset the candidate
is dropped (`none`). -/
def triplet_for (files : List String) (json_file : String) : Option Triplet :=
  let base_name := base_name_of json_file
  match firstExisting files base_name audioExts with
  | none => none
  | some audio_file =>
    some ⟨audio_file, json_file, firstExisting files (base_name ++ "_cover") coverExts⟩

/-- The matcher `find_triplets`: for each sidecar (glob `*_tags.json`, in
directory order) emit the unit resolved by `triplet_for`, if any. -/
def find_triplets (files : List String) : List Triplet :=
  (files.filter sidecarMatch).filterMap (triplet_for files)

/-! ## Metadata records and the ID3 tag model (`apply_tags`)

The tag container is the external tag-writer collaborator (mutagen ID3): a
keyed frame store whose `add` replaces any frame already stored under the
same key and otherwise appends the frame. -/

/-- The first element of the sidecar JSON array: the optional string-valued
fields the script reads with `tags_data.get(...)`. -/
structure MetadataRecord where
  title : Option String
  artist : Option String
  album : Option String
  year : Option String
  genre : Option String
  comment : Option String
deriving DecidableEq, Repr

/-- Python truthiness of `tags_data.get(field)`: present and non-empty. -/
def truthy : Option String → Bool
  | none => false
  | some s => s != ""

/-- Identifier of a plain text frame used by `apply_tags`. -/
inductive FrameId where
  | TIT2 | TPE1 | TALB | TDRC | TCON
deriving DecidableEq, Repr

/-- Frame-id name, as used in the mutagen hash key. -/
def FrameId.name : FrameId → String
  | .TIT2 => "TIT2"
  | .TPE1 => "TPE1"
  | .TALB => "TALB"
  | .TDRC => "TDRC"
  | .TCON => "TCON"

/-- An ID3 frame as built by the script: text frames, the comment frame
(with language and description), and the embedded picture frame. -/
inductive Frame where
  | text (id : FrameId) (encoding : Nat) (txt : List String)
  | comm (encoding : Nat) (lang desc : String) (txt : List String)
  | apic (encoding : Nat) (mime : String) (picType : Nat) (desc : String) (dat : List Nat)
deriving DecidableEq, Repr

/-- The mutagen hash key of a frame: text frames are keyed by their id,
`COMM` by id, description and language, `APIC` by id and description. -/
def Frame.key : Frame → String
  | .text id _ _ => id.name
  | .comm _ lang desc _ => "COMM:" ++ desc ++ ":" ++ lang
  | .apic _ _ _ desc _ => "APIC:" ++ desc

namespace ID3

/-- Mutagen `tags.add(f)`: dictionary assignment under `f.key` — replace the
frame stored under that key if present, else append the frame. -/
def add (t : List Frame) (f : Frame) : List Frame :=
  if t.any fun g => g.key == f.key then
    t.map fun g => if g.key == f.key then f else g
  else
    t ++ [f]

end ID3

/-- The frames `apply_tags` adds, in program order: one per truthy field. -/
def framesOf (d : MetadataRecord) : List Frame :=
  (if truthy d.title then [Frame.text .TIT2 3 [d.title.getD ""]] else [])
  ++ (if truthy d.artist then [Frame.text .TPE1 3 [d.artist.getD ""]] else [])
  ++ (if truthy d.album then [Frame.text .TALB 3 [d.album.getD ""]] else [])
  ++ (if truthy d.year then [Frame.text .TDRC 3 [d.year.getD ""]] else [])
  ++ (if truthy d.genre then [Frame.text .TCON 3 [d.genre.getD ""]] else [])
  ++ (if truthy d.comment then [Frame.comm 3 "eng" "" [d.comment.getD ""]] else [])

/-- The tagger `apply_tags` acting on the tag container: each truthy field
adds its frame (encoding 3, single-element text list), in the source's
order. -/
def apply_tags (t : List Frame) (d : MetadataRecord) : List Frame :=
  let t1 := if truthy d.title then ID3.add t (.text .TIT2 3 [d.title.getD ""]) else t
  let t2 := if truthy d.artist then ID3.add t1 (.text .TPE1 3 [d.artist.getD ""]) else t1
  let t3 := if truthy d.album then ID3.add t2 (.text .TALB 3 [d.album.getD ""]) else t2
  let t4 := if truthy d.year then ID3.add t3 (.text .TDRC 3 [d.year.getD ""]) else t3
  let t5 := if truthy d.genre then ID3.add t4 (.text .TCON 3 [d.genre.getD ""]) else t4
  if truthy d.comment then ID3.add t5 (.comm 3 "eng" "" [d.comment.getD ""]) else t5

/-- Number of frames of the container carrying a given key. -/
def countKey (t : List Frame) (k : String) : Nat :=
  t.countP fun f => f.key == k

/-! ## The per-unit pipeline (`process_triplet`) -/

/-- Outcomes of the external collaborators for one unit: the parsed sidecar
(`none` = any read/parse exception), the ffmpeg exit status, the tag write
status, the cover-embed status, per-path `unlink` status (`false` = the call
raises), and the result of `audio_file.exists()` at cleanup time. -/
structure Env where
  readTags : Option (List MetadataRecord)
  convert : Bool
  tagOk : Bool
  embedOk : Bool
  unlinkOk : String → Bool
  audioExistsAtCleanup : Bool

/-- Result of processing one unit: the returned flag, the `mp3_file` path
once assigned, the encoder invocation (input and output paths) if any, the
cover-embed outcome if a cover was present, and the `unlink` calls of the
cleanup block in order, each with its outcome. -/
structure RunResult where
  success : Bool
  mp3File : Option String
  convertCall : Option (String × String)
  embedResult : Option Bool
  attempts : List (String × Bool)
deriving DecidableEq, Repr

/-- The ffmpeg command line built by `convert_to_mp3`. -/
def convert_cmd (input_file output_file : String) : List String :=
  ["ffmpeg", "-i", input_file, "-codec:a", "libmp3lame", "-q:a", "0", "-y", output_file]

/-- Last part of the cleanup block: remove the original audio file when it
differs from the final path and still exists. -/
def cleanupOriginal (env : Env) (audio_file mp3_file : String) : List (String × Bool) :=
  if audio_file ≠ mp3_file ∧ env.audioExistsAtCleanup = true then
    [(audio_file, env.unlinkOk audio_file)]
  else
    []

/-- The cleanup block of `process_triplet`: unlink the sidecar, then the
cover (if any), then the original audio, inside one `try`; the first raising
call aborts the rest, and the exception is swallowed. -/
def cleanup_attempts (env : Env) (tags_file : String) (cover_file : Option String)
    (audio_file mp3_file : String) : List (String × Bool) :=
  if env.unlinkOk tags_file = false then
    [(tags_file, false)]
  else
    (tags_file, true) ::
      match cover_file with
      | some c =>
        if env.unlinkOk c = false then
          [(c, false)]
        else
          (c, true) :: cleanupOriginal env audio_file mp3_file
      | none => cleanupOriginal env audio_file mp3_file

/-- Tail of `process_triplet` after a successful normalization: tagging
decides the outcome, cover embedding is attempted if a cover exists but its
result is only logged, then the cleanup block runs. -/
def process_after_normalize (env : Env) (t : Triplet) (mp3_file : String)
    (call : Option (String × String)) : RunResult :=
  if env.tagOk = false then
    ⟨false, some mp3_file, call, none, []⟩
  else
    ⟨true, some mp3_file, call, t.cover.map fun _ => env.embedOk,
      cleanup_attempts env t.tags t.cover t.audio mp3_file⟩

/-- The pipeline `process_triplet`: read the sidecar (abort on exception or
empty array),
normalize to mp3 (skip when the extension already lower-cases to `.mp3`,
else invoke ffmpeg on the `.mp3` sibling and abort on failure), tag, embed
cover, clean up. -/
def process_triplet (env : Env) (t : Triplet) : RunResult :=
  match env.readTags with
  | none => ⟨false, none, none, none, []⟩
  | some tags_list =>
    if tags_list.isEmpty then
      ⟨false, none, none, none, []⟩
    else
      if strToLower (pathSuffix t.audio) = ".mp3" then
        process_after_normalize env t t.audio none
      else
        let mp3_file := withSuffix t.audio ".mp3"
        if env.convert = false then
          ⟨false, some mp3_file, some (t.audio, mp3_file), none, []⟩
        else
          process_after_normalize env t mp3_file (some (t.audio, mp3_file))

/-- The final path a unit is tagged at, as computed by `process_triplet`. -/
def normalizedPath (t : Triplet) : String :=
  if strToLower (pathSuffix t.audio) = ".mp3" then t.audio else withSuffix t.audio ".mp3"

/-! ## The batch runner (`main`) -/

/-- Observable outcome of `main`: the process exit status, the number of
units found (0 when the run stops before or at matching), and the number of
units reported successful. -/
structure BatchResult where
  exitCode : Nat
  unitsFound : Nat
  successCount : Nat
deriving DecidableEq, Repr

/-- The entry point `main`: exit 1 when the directory is missing or not a
directory (before
any matching or processing); otherwise match triplets, exit 0 immediately
when none are found, else process each unit independently and exit 0
whatever the per-unit outcomes. -/
def main_run (dirExists isDir : Bool) (files : List String) (envOf : Triplet → Env) :
    BatchResult :=
  if dirExists = false then
    ⟨1, 0, 0⟩
  else if isDir = false then
    ⟨1, 0, 0⟩
  else
    let triplets := find_triplets files
    if triplets.isEmpty then
      ⟨0, 0, 0⟩
    else
      ⟨0, triplets.length,
        triplets.countP fun t => (process_triplet (envOf t) t).success⟩

/-! ## Sample values used by the witness theorems -/

/-- A sample metadata record: title and artist present, genre present but
empty (hence falsy), the rest absent. -/
def recSample : MetadataRecord :=
  ⟨some "A", some "B", none, none, some "", none⟩

/-- Collaborator outcomes where everything succeeds except cover embedding. -/
def envAllOk : Env :=
  ⟨some [recSample], true, true, false, fun _ => true, true⟩

/-- Collaborator outcomes where reading the sidecar raises. -/
def envNoRead : Env :=
  ⟨none, true, true, true, fun _ => true, true⟩

/-- Collaborator outcomes where the tag write fails. -/
def envTagFail : Env :=
  ⟨some [recSample], true, false, true, fun _ => true, true⟩

/-- Collaborator outcomes where unlinking the sidecar `song_tags.json`
raises and everything else succeeds. -/
def envUnlinkTagsFail : Env :=
  ⟨some [recSample], true, true, true, fun p => p != "song_tags.json", true⟩

/-- A well-formed extension: a dot followed by at least one character and no
further dot.  All extensions in `audioExts` and `coverExts` have this shape. -/
def IsSimpleExt (e : String) : Prop :=
  ∃ rest, e.data = '.' :: rest ∧ rest ≠ [] ∧ '.' ∉ rest

/-- The container holds the frame `f`, and every frame under `f`'s key is
`f` itself: the state reached once `add f` has run. -/
def ID3.Canon (t : List Frame) (f : Frame) : Prop :=
  f ∈ t ∧ ∀ g ∈ t, g.key = f.key → g = f

/-! # Theorems

## String and path lemmas -/

theorem strData_append (a b : String) : (a ++ b).data = a.data ++ b.data := by
  cases a
  cases b
  rfl

theorem strEq_of_data {a b : String} (h : a.data = b.data) : a = b := by
  cases a
  cases b
  exact congrArg String.mk h

theorem strData_ne {b : String} (h : b ≠ "") : b.data ≠ [] := by
  intro hd
  exact h (strEq_of_data (by simpa using hd))

theorem append_right_ne {e₁ e₂ : String} (b : String) (h : e₁ ≠ e₂) :
    b ++ e₁ ≠ b ++ e₂ := by
  intro hc
  apply h
  apply strEq_of_data
  have hd := congrArg String.data hc
  rw [strData_append, strData_append] at hd
  exact List.append_cancel_left hd

theorem lastDotIdx_of_no_dot {l : List Char} (h : '.' ∉ l) : lastDotIdx l = none := by
  induction l with
  | nil => rfl
  | cons c rest ih =>
    have hc : c ≠ '.' := fun hc => h (hc ▸ List.mem_cons_self c rest)
    have hr : '.' ∉ rest := fun hr => h (List.mem_cons_of_mem c hr)
    simp [lastDotIdx, ih hr, hc]

theorem lastDotIdx_append (l₁ l₂ : List Char) (h : '.' ∉ l₂) :
    lastDotIdx (l₁ ++ '.' :: l₂) = some l₁.length := by
  induction l₁ with
  | nil => simp [lastDotIdx, lastDotIdx_of_no_dot h]
  | cons c rest ih => simp [lastDotIdx, ih]

theorem pathStem_pathSuffix_append (b e : String) (hb : b ≠ "") (he : IsSimpleExt e) :
    pathStem (b ++ e) = b ∧ pathSuffix (b ++ e) = e := by
  obtain ⟨rest, he1, he2, he3⟩ := he
  have hdata : (b ++ e).data = b.data ++ '.' :: rest := by
    rw [strData_append, he1]
  have hidx : lastDotIdx (b ++ e).data = some b.data.length := by
    rw [hdata]
    exact lastDotIdx_append _ _ he3
  have hlen0 : 0 < b.data.length := List.length_pos.mpr (strData_ne hb)
  have hlen1 : b.data.length + 1 < (b ++ e).data.length := by
    rw [hdata, List.length_append, List.length_cons]
    have : 0 < rest.length := List.length_pos.mpr he2
    omega
  constructor
  · rw [pathStem, hidx]
    dsimp only
    rw [if_pos ⟨hlen0, hlen1⟩]
    apply strEq_of_data
    show List.take b.data.length (b ++ e).data = b.data
    rw [hdata]
    exact List.take_left b.data ('.' :: rest)
  · rw [pathSuffix, hidx]
    dsimp only
    rw [if_pos ⟨hlen0, hlen1⟩]
    apply strEq_of_data
    show List.drop b.data.length (b ++ e).data = e.data
    rw [hdata, he1]
    exact List.drop_left b.data ('.' :: rest)

theorem isSimpleExt_m4a : IsSimpleExt ".m4a" :=
  ⟨['m', '4', 'a'], rfl, by decide, by decide⟩

theorem isSimpleExt_mp4 : IsSimpleExt ".mp4" :=
  ⟨['m', 'p', '4'], rfl, by decide, by decide⟩

theorem withSuffix_of_simple (b e : String) (hb : b ≠ "") (he : IsSimpleExt e) :
    withSuffix (b ++ e) ".mp3" = b ++ ".mp3" := by
  rw [withSuffix, (pathStem_pathSuffix_append b e hb he).1]

/-! ## Matcher lemmas -/

theorem firstExisting_eq_find (files : List String) (base : String) (exts : List String) :
    firstExisting files base exts
      = (exts.find? fun e => decide (base ++ e ∈ files)).map fun e => base ++ e := by
  induction exts with
  | nil => rfl
  | cons e rest ih =>
    by_cases h : base ++ e ∈ files
    · simp [firstExisting, h]
    · simp [firstExisting, h, ih]

theorem firstExisting_head (files : List String) (base ext : String) (exts : List String)
    (h : base ++ ext ∈ files) :
    firstExisting files base (ext :: exts) = some (base ++ ext) := by
  simp [firstExisting, h]

theorem find_triplets_tags (files : List String) :
    (find_triplets files).map Triplet.tags
      = (files.filter sidecarMatch).filter
          fun j => (firstExisting files (base_name_of j) audioExts).isSome := by
  rw [find_triplets]
  induction files.filter sidecarMatch with
  | nil => rfl
  | cons j rest ih =>
    rw [List.filterMap_cons]
    cases h : triplet_for files j with
    | none =>
      have hiso : (firstExisting files (base_name_of j) audioExts).isSome = false := by
        rw [triplet_for] at h
        cases hfe : firstExisting files (base_name_of j) audioExts with
        | none => rfl
        | some a => rw [hfe] at h; exact absurd h (by simp)
      simp [ih, hiso]
    | some tr =>
      have htags : tr.tags = j := by
        rw [triplet_for] at h
        cases hfe : firstExisting files (base_name_of j) audioExts with
        | none => rw [hfe] at h; exact absurd h (by simp)
        | some a =>
          rw [hfe] at h
          cases tr
          injection h with h
          injection h with h1 h2 h3
          exact h2.symm
      have hiso : (firstExisting files (base_name_of j) audioExts).isSome = true := by
        rw [triplet_for] at h
        cases hfe : firstExisting files (base_name_of j) audioExts with
        | none => rw [hfe] at h; exact absurd h (by simp)
        | some a => rfl
      simp [ih, hiso, htags]

theorem find_triplets_mem (files : List String) (tr : Triplet)
    (h : tr ∈ find_triplets files) :
    sidecarMatch tr.tags = true
    ∧ firstExisting files (base_name_of tr.tags) audioExts = some tr.audio
    ∧ tr.cover = firstExisting files (base_name_of tr.tags ++ "_cover") coverExts := by
  rw [find_triplets] at h
  obtain ⟨j, hj, htr⟩ := List.mem_filterMap.mp h
  have hsc : sidecarMatch j = true := (List.mem_filter.mp hj).2
  rw [triplet_for] at htr
  cases hfe : firstExisting files (base_name_of j) audioExts with
  | none => rw [hfe] at htr; exact absurd htr (by simp)
  | some a =>
    rw [hfe] at htr
    cases tr
    injection htr with htr
    injection htr with h1 h2 h3
    subst h1
    subst h2
    subst h3
    exact ⟨hsc, hfe, rfl⟩

/-! ## Tag-container lemmas -/

theorem ID3.canon_add_self (t : List Frame) (f : Frame) : ID3.Canon (ID3.add t f) f := by
  unfold ID3.Canon ID3.add
  by_cases h : t.any fun g => g.key == f.key
  · rw [if_pos h]
    constructor
    · obtain ⟨g, hg, hgk⟩ := List.any_eq_true.mp h
      exact List.mem_map.mpr ⟨g, hg, by simp [hgk]⟩
    · intro g hg hk
      obtain ⟨g0, hg0, hmap⟩ := List.mem_map.mp hg
      by_cases h0 : (g0.key == f.key) = true
      · rw [if_pos h0] at hmap
        exact hmap.symm
      · rw [if_neg h0] at hmap
        exact absurd (beq_of_eq (hmap ▸ hk)) h0
  · rw [if_neg h]
    constructor
    · exact List.mem_append_right _ (List.mem_singleton.mpr rfl)
    · intro g hg hk
      rcases List.mem_append.mp hg with h1 | h2
      · have hany : (t.any fun g => g.key == f.key) = true :=
          List.any_eq_true.mpr ⟨g, h1, beq_of_eq hk⟩
        exact absurd hany h
      · simpa using h2

theorem ID3.canon_add_preserve {t : List Frame} {f : Frame} (c : ID3.Canon t f)
    {f' : Frame} (hk : f'.key ≠ f.key) : ID3.Canon (ID3.add t f') f := by
  obtain ⟨cmem, ckey⟩ := c
  unfold ID3.Canon ID3.add
  by_cases h : t.any fun g => g.key == f'.key
  · rw [if_pos h]
    constructor
    · refine List.mem_map.mpr ⟨f, cmem, ?_⟩
      rw [if_neg fun hb => hk (beq_iff_eq.mp hb).symm]
    · intro g hg hgk
      obtain ⟨g0, hg0, hmap⟩ := List.mem_map.mp hg
      by_cases h0 : (g0.key == f'.key) = true
      · rw [if_pos h0] at hmap
        exact absurd (hmap.symm ▸ hgk) hk
      · rw [if_neg h0] at hmap
        exact ckey g (hmap ▸ hg0) hgk
  · rw [if_neg h]
    refine ⟨List.mem_append_left _ cmem, fun g hg hgk => ?_⟩
    rcases List.mem_append.mp hg with h1 | h2
    · exact ckey g h1 hgk
    · exfalso
      have hgf : g = f' := by simpa using h2
      exact hk (hgf ▸ hgk)

theorem ID3.add_of_canon {t : List Frame} {f : Frame} (c : ID3.Canon t f) :
    ID3.add t f = t := by
  obtain ⟨cmem, ckey⟩ := c
  unfold ID3.add
  rw [if_pos (List.any_eq_true.mpr ⟨f, cmem, by simp⟩)]
  have hpt : ∀ g ∈ t, (if g.key == f.key then f else g) = g := by
    intro g hg
    by_cases h0 : (g.key == f.key) = true
    · rw [if_pos h0, ckey g hg (beq_iff_eq.mp h0)]
    · rw [if_neg h0]
  calc t.map (fun g => if g.key == f.key then f else g) = t.map id :=
        List.map_congr_left hpt
    _ = t := List.map_id t

theorem ID3.add_of_fresh {t : List Frame} {f : Frame}
    (h : ∀ g ∈ t, g.key ≠ f.key) : ID3.add t f = t ++ [f] := by
  unfold ID3.add
  rw [if_neg]
  intro hany
  obtain ⟨g, hg, hgk⟩ := List.any_eq_true.mp hany
  exact h g hg (beq_iff_eq.mp hgk)

theorem ID3.foldl_add_of_canon (fs : List Frame) :
    ∀ t : List Frame, (∀ f ∈ fs, ID3.Canon t f) → fs.foldl ID3.add t = t := by
  induction fs with
  | nil => intro t _; rfl
  | cons f rest ih =>
    intro t h
    rw [List.foldl_cons, ID3.add_of_canon (h f (List.mem_cons_self f rest))]
    exact ih t fun g hg => h g (List.mem_cons_of_mem f hg)

theorem ID3.canon_preserve_foldl (fs : List Frame) :
    ∀ (t : List Frame) (f : Frame), ID3.Canon t f → (∀ g ∈ fs, g.key ≠ f.key) →
      ID3.Canon (fs.foldl ID3.add t) f := by
  induction fs with
  | nil => intro t f c _; exact c
  | cons g rest ih =>
    intro t f c hkeys
    rw [List.foldl_cons]
    exact ih _ f (ID3.canon_add_preserve c (hkeys g (List.mem_cons_self g rest)))
      fun g' hg' => hkeys g' (List.mem_cons_of_mem g hg')

theorem ID3.canon_of_foldl (fs : List Frame)
    (hp : fs.Pairwise fun a b => a.key ≠ b.key) :
    ∀ t : List Frame, ∀ f ∈ fs, ID3.Canon (fs.foldl ID3.add t) f := by
  induction fs with
  | nil => intro t f hf; cases hf
  | cons g rest ih =>
    intro t f hf
    rw [List.foldl_cons]
    rcases List.mem_cons.mp hf with h1 | h2
    · subst h1
      exact ID3.canon_preserve_foldl rest _ f (ID3.canon_add_self t f)
        fun g' hg' => ((List.pairwise_cons.mp hp).1 g' hg').symm
    · exact ih (List.pairwise_cons.mp hp).2 (ID3.add t g) f h2

theorem ID3.foldl_add_idem (fs : List Frame)
    (hp : fs.Pairwise fun a b => a.key ≠ b.key) (t : List Frame) :
    fs.foldl ID3.add (fs.foldl ID3.add t) = fs.foldl ID3.add t :=
  ID3.foldl_add_of_canon fs _ fun f hf => ID3.canon_of_foldl fs hp t f hf

theorem ID3.foldl_add_fresh (fs : List Frame)
    (hp : fs.Pairwise fun a b => a.key ≠ b.key) :
    ∀ l : List Frame, (∀ f ∈ fs, ∀ g ∈ l, g.key ≠ f.key) →
      fs.foldl ID3.add l = l ++ fs := by
  induction fs with
  | nil => intro l _; simp
  | cons f rest ih =>
    intro l h
    rw [List.foldl_cons, ID3.add_of_fresh (h f (List.mem_cons_self f rest))]
    rw [ih (List.pairwise_cons.mp hp).2 (l ++ [f]) ?fresh]
    · simp
    case fresh =>
      intro f' hf' g hg
      rcases List.mem_append.mp hg with h1 | h2
      · exact h f' (List.mem_cons_of_mem f hf') g h1
      · have : g = f := by simpa using h2
        subst this
        exact (List.pairwise_cons.mp hp).1 f' hf'

theorem apply_tags_eq_foldl (t : List Frame) (d : MetadataRecord) :
    apply_tags t d = (framesOf d).foldl ID3.add t := by
  simp only [apply_tags, framesOf]
  split_ifs <;> rfl

theorem framesOf_pairwise (d : MetadataRecord) :
    (framesOf d).Pairwise fun a b => a.key ≠ b.key := by
  unfold framesOf
  split_ifs <;> simp [Frame.key, FrameId.name]

/-! ## Pipeline lemmas -/

theorem cleanup_attempts_ne_nil (env : Env) (tagsF : String) (cover : Option String)
    (audioF mp3F : String) : cleanup_attempts env tagsF cover audioF mp3F ≠ [] := by
  unfold cleanup_attempts
  split_ifs <;> simp

theorem process_reach_cleanup (env : Env) (t : Triplet)
    (hr : ∃ l, env.readTags = some l ∧ l ≠ [])
    (hn : strToLower (pathSuffix t.audio) = ".mp3" ∨ env.convert = true)
    (ht : env.tagOk = true) :
    process_triplet env t =
      ⟨true, some (normalizedPath t),
        if strToLower (pathSuffix t.audio) = ".mp3" then none
        else some (t.audio, withSuffix t.audio ".mp3"),
        t.cover.map fun _ => env.embedOk,
        cleanup_attempts env t.tags t.cover t.audio (normalizedPath t)⟩ := by
  obtain ⟨l, hl, hne⟩ := hr
  have hle : l.isEmpty = false := by simp [hne]
  by_cases hm : strToLower (pathSuffix t.audio) = ".mp3"
  · simp [process_triplet, hl, hle, hm, process_after_normalize, ht, normalizedPath]
  · have hc : env.convert = true := hn.resolve_left hm
    simp [process_triplet, hl, hle, hm, hc, process_after_normalize, ht, normalizedPath]

theorem process_fail_of_read_none (env : Env) (t : Triplet) (h : env.readTags = none) :
    process_triplet env t = ⟨false, none, none, none, []⟩ := by
  simp [process_triplet, h]

theorem process_fail_of_read_empty (env : Env) (t : Triplet)
    (h : env.readTags = some []) :
    process_triplet env t = ⟨false, none, none, none, []⟩ := by
  simp [process_triplet, h]

theorem process_fail_of_convert (env : Env) (t : Triplet)
    (hm : strToLower (pathSuffix t.audio) ≠ ".mp3") (hc : env.convert = false) :
    (process_triplet env t).success = false ∧ (process_triplet env t).attempts = [] := by
  cases hl : env.readTags with
  | none => simp [process_triplet, hl]
  | some l =>
    by_cases hle : l = []
    · subst hle
      simp [process_triplet, hl]
    · have hle' : l.isEmpty = false := by simp [hle]
      simp [process_triplet, hl, hle', hm, hc]

theorem process_fail_of_tag (env : Env) (t : Triplet) (ht : env.tagOk = false) :
    (process_triplet env t).success = false ∧ (process_triplet env t).attempts = [] := by
  cases hl : env.readTags with
  | none => simp [process_triplet, hl]
  | some l =>
    by_cases hle : l = []
    · subst hle
      simp [process_triplet, hl]
    · have hle' : l.isEmpty = false := by simp [hle]
      by_cases hm : strToLower (pathSuffix t.audio) = ".mp3"
      · simp [process_triplet, hl, hle', hm, process_after_normalize, ht]
      · cases hc : env.convert with
        | false => simp [process_triplet, hl, hle', hm, hc]
        | true => simp [process_triplet, hl, hle', hm, hc, process_after_normalize, ht]

theorem success_conditions (env : Env) (t : Triplet)
    (hs : (process_triplet env t).success = true) :
    (∃ l, env.readTags = some l ∧ l ≠ []) ∧
    (strToLower (pathSuffix t.audio) = ".mp3" ∨ env.convert = true) ∧
    env.tagOk = true := by
  cases hl : env.readTags with
  | none =>
    rw [process_fail_of_read_none env t hl] at hs
    exact absurd hs (by decide)
  | some l =>
    by_cases hle : l = []
    · subst hle
      rw [process_fail_of_read_empty env t hl] at hs
      exact absurd hs (by decide)
    · refine ⟨⟨l, rfl, hle⟩, ?_, ?_⟩
      · by_cases hm : strToLower (pathSuffix t.audio) = ".mp3"
        · exact Or.inl hm
        · cases hc : env.convert with
          | true => exact Or.inr rfl
          | false =>
            obtain ⟨h1, _⟩ := process_fail_of_convert env t hm hc
            rw [h1] at hs
            exact absurd hs (by decide)
      · cases ht : env.tagOk with
        | true => rfl
        | false =>
          obtain ⟨h1, _⟩ := process_fail_of_tag env t ht
          rw [h1] at hs
          exact absurd hs (by decide)

/-! ## The claims -/

/-- C1: a unit is reported successful exactly when reading the sidecar
(a parse that yields a non-empty array), normalization (either already mp3
or a successful encoder run) and the tag write all succeed; the cover-embed
outcome and the unlink outcomes do not occur in this condition, and every
successful unit still runs the cleanup block (its unlink-attempt list is
non-empty) and reaches the success return. -/
theorem claim_C1 (env : Env) (t : Triplet) :
    ((process_triplet env t).success = true ↔
      (∃ l, env.readTags = some l ∧ l ≠ []) ∧
      (strToLower (pathSuffix t.audio) = ".mp3" ∨ env.convert = true) ∧
      env.tagOk = true)
    ∧ ((process_triplet env t).success = true →
        (process_triplet env t).attempts ≠ []) := by
  constructor
  · constructor
    · exact success_conditions env t
    · rintro ⟨hr, hn, ht⟩
      rw [process_reach_cleanup env t hr hn ht]
  · intro hs
    obtain ⟨hr, hn, ht⟩ := success_conditions env t hs
    rw [process_reach_cleanup env t hr hn ht]
    exact cleanup_attempts_ne_nil env t.tags t.cover t.audio (normalizedPath t)

/-- C1 witness: with a failing cover embed and a failing sidecar unlink the
unit is still reported successful. -/
theorem claim_C1_witness :
    (process_triplet envUnlinkTagsFail
      ⟨"song.flac", "song_tags.json", some "song_cover.png"⟩).success = true :=
  (claim_C1 envUnlinkTagsFail ⟨"song.flac", "song_tags.json", some "song_cover.png"⟩).1.mpr
    ⟨⟨[recSample], rfl, by decide⟩, Or.inr rfl, rfl⟩

/-- C2: when the sidecar read raises or yields an empty array, when the
encoder fails on a non-mp3 asset, or when the tag write fails, the unit is
marked failed and no unlink call is attempted at all, so the sidecar, the
cover and the original audio asset all remain on disk. -/
theorem claim_C2 (env : Env) (t : Triplet)
    (h : env.readTags = none ∨ env.readTags = some [] ∨
      (strToLower (pathSuffix t.audio) ≠ ".mp3" ∧ env.convert = false) ∨
      env.tagOk = false) :
    (process_triplet env t).success = false ∧ (process_triplet env t).attempts = [] := by
  rcases h with h | h | ⟨hm, hc⟩ | h
  · rw [process_fail_of_read_none env t h]
    exact ⟨rfl, rfl⟩
  · rw [process_fail_of_read_empty env t h]
    exact ⟨rfl, rfl⟩
  · exact process_fail_of_convert env t hm hc
  · exact process_fail_of_tag env t h

/-- C2 witness: a unit whose sidecar read raises is failed with no unlink
attempts. -/
theorem claim_C2_witness :
    (process_triplet envNoRead ⟨"song.flac", "song_tags.json", some "song_cover.png"⟩).success
        = false
    ∧ (process_triplet envNoRead
        ⟨"song.flac", "song_tags.json", some "song_cover.png"⟩).attempts = [] :=
  claim_C2 envNoRead ⟨"song.flac", "song_tags.json", some "song_cover.png"⟩ (Or.inl rfl)

/-- C3: once tagging has succeeded (whatever the embed oracle returned) and
all unlink calls succeed, the cleanup block deletes exactly the sidecar,
then the cover if one was resolved, then the original audio asset exactly
when the normalized path differs from it and it still exists; in particular
a unit already in mp3 form keeps its audio file while sidecar and cover are
removed. -/
theorem claim_C3 (env : Env) (t : Triplet)
    (hr : ∃ l, env.readTags = some l ∧ l ≠ [])
    (hn : strToLower (pathSuffix t.audio) = ".mp3" ∨ env.convert = true)
    (ht : env.tagOk = true)
    (hu : ∀ p, env.unlinkOk p = true) :
    (process_triplet env t).attempts =
      (t.tags, true) ::
        ((match t.cover with | some c => [(c, true)] | none => []) ++
          (if t.audio ≠ normalizedPath t ∧ env.audioExistsAtCleanup = true
           then [(t.audio, true)] else []))
    ∧ (strToLower (pathSuffix t.audio) = ".mp3" →
        (process_triplet env t).attempts =
          (t.tags, true) :: (match t.cover with | some c => [(c, true)] | none => [])) := by
  have hmain : (process_triplet env t).attempts =
      (t.tags, true) ::
        ((match t.cover with | some c => [(c, true)] | none => []) ++
          (if t.audio ≠ normalizedPath t ∧ env.audioExistsAtCleanup = true
           then [(t.audio, true)] else [])) := by
    rw [process_reach_cleanup env t hr hn ht]
    show cleanup_attempts env t.tags t.cover t.audio (normalizedPath t) = _
    unfold cleanup_attempts cleanupOriginal
    cases t.cover <;> simp [hu]
  refine ⟨hmain, fun hm => ?_⟩
  rw [hmain]
  have hnp : normalizedPath t = t.audio := by rw [normalizedPath, if_pos hm]
  simp [hnp]

/-- C3 witness: an already-mp3 unit with a cover has exactly the sidecar and
the cover removed, in that order, and keeps its audio file. -/
theorem claim_C3_witness :
    (process_triplet envAllOk ⟨"song.mp3", "song_tags.json", some "song_cover.png"⟩).attempts
      = [("song_tags.json", true), ("song_cover.png", true)] :=
  (claim_C3 envAllOk ⟨"song.mp3", "song_tags.json", some "song_cover.png"⟩
    ⟨[recSample], rfl, by decide⟩ (Or.inl (by decide)) rfl (fun _ => rfl)).2 (by decide)

/-- C9: cleanup unlinks run in the fixed order sidecar, cover, original
audio inside one exception scope: the attempt list is always a prefix of
that order, every attempt before the last one succeeded, and when unlinking
the sidecar raises, nothing else is attempted while the unit is still
reported successful. -/
theorem claim_C9 (env : Env) (t : Triplet)
    (hr : ∃ l, env.readTags = some l ∧ l ≠ [])
    (hn : strToLower (pathSuffix t.audio) = ".mp3" ∨ env.convert = true)
    (ht : env.tagOk = true) :
    ((process_triplet env t).attempts.map Prod.fst =
      (t.tags :: (t.cover.toList ++
        (if t.audio ≠ normalizedPath t ∧ env.audioExistsAtCleanup = true
         then [t.audio] else []))).take (process_triplet env t).attempts.length)
    ∧ (∀ x ∈ (process_triplet env t).attempts.dropLast, x.2 = true)
    ∧ (env.unlinkOk t.tags = false →
        (process_triplet env t).attempts = [(t.tags, false)]
        ∧ (process_triplet env t).success = true) := by
  rw [process_reach_cleanup env t hr hn ht]
  unfold cleanup_attempts cleanupOriginal
  cases hb : env.unlinkOk t.tags with
  | false => cases t.cover <;> split_ifs <;> simp_all
  | true =>
    cases t.cover with
    | none => split_ifs <;> simp_all
    | some c => cases hcb : env.unlinkOk c <;> split_ifs <;> simp_all

/-- C9 witness: with a raising sidecar unlink, the only attempt is the
sidecar and the unit is still successful. -/
theorem claim_C9_witness :
    (process_triplet envUnlinkTagsFail
      ⟨"song.flac", "song_tags.json", some "song_cover.png"⟩).attempts
        = [("song_tags.json", false)]
    ∧ (process_triplet envUnlinkTagsFail
        ⟨"song.flac", "song_tags.json", some "song_cover.png"⟩).success = true :=
  (claim_C9 envUnlinkTagsFail ⟨"song.flac", "song_tags.json", some "song_cover.png"⟩
    ⟨[recSample], rfl, by decide⟩ (Or.inr rfl) rfl).2.2 (by decide)

/-- C4: for any base name the audio and cover searches walk their fixed
extension lists in order and return the first existing candidate (the
`find?`-characterization), so when both the `.m4a` and the `.mp3` sibling
exist the `.m4a` one is selected and the `.mp3` one is never the result. -/
theorem claim_C4 (files : List String) (base : String) :
    (firstExisting files base audioExts
      = (audioExts.find? fun e => decide (base ++ e ∈ files)).map fun e => base ++ e)
    ∧ (firstExisting files (base ++ "_cover") coverExts
      = (coverExts.find? fun e => decide (base ++ "_cover" ++ e ∈ files)).map
          fun e => base ++ "_cover" ++ e)
    ∧ (base ++ ".m4a" ∈ files →
        firstExisting files base audioExts = some (base ++ ".m4a")
        ∧ firstExisting files base audioExts ≠ some (base ++ ".mp3")) := by
  refine ⟨firstExisting_eq_find files base audioExts,
    firstExisting_eq_find files (base ++ "_cover") coverExts, fun h => ?_⟩
  have hsel : firstExisting files base audioExts = some (base ++ ".m4a") :=
    firstExisting_head files base ".m4a" [".mp4", ".mp3", ".flac"] h
  refine ⟨hsel, ?_⟩
  rw [hsel]
  intro hc
  injection hc with hc
  exact append_right_ne base (by decide) hc

/-- C4 witness: with both siblings present the `.m4a` one wins, and a cover
search picks the first existing cover extension. -/
theorem claim_C4_witness :
    firstExisting ["a.m4a", "a.mp3", "a_cover.png"] "a" audioExts = some "a.m4a"
    ∧ firstExisting ["a.m4a", "a.mp3", "a_cover.png"] "a" audioExts ≠ some "a.mp3" :=
  (claim_C4 ["a.m4a", "a.mp3", "a_cover.png"] "a").2.2 (by decide)

/-- C5 (amended): the matcher emits exactly one unit per glob-matched
sidecar that resolves an audio asset, in directory order; each unit carries
that sidecar, the first-match audio and the first-match cover for its base
name; and the base name is the sidecar stem with every occurrence of
`_tags` removed (not only a trailing suffix), so distinct sidecars can
collide on one base name. -/
theorem claim_C5 (files : List String) :
    ((find_triplets files).map Triplet.tags
      = (files.filter sidecarMatch).filter
          fun j => (firstExisting files (base_name_of j) audioExts).isSome)
    ∧ (∀ tr ∈ find_triplets files,
        sidecarMatch tr.tags = true
        ∧ firstExisting files (base_name_of tr.tags) audioExts = some tr.audio
        ∧ tr.cover = firstExisting files (base_name_of tr.tags ++ "_cover") coverExts)
    ∧ (∀ j, base_name_of j = pyReplace (pathStem j) "_tags" "") :=
  ⟨find_triplets_tags files, fun tr htr => find_triplets_mem files tr htr, fun _ => rfl⟩

/-- C5 counterexample: the sidecars `a_tags.json` and `a_tags_tags.json`
are distinct yet both map to base name `a` (suffix-only stripping would give
`a_tags` for the second), and one directory holding both yields two units
for the single base name `a`. -/
theorem claim_C5_cex :
    base_name_of "a_tags.json" = "a"
    ∧ base_name_of "a_tags_tags.json" = "a"
    ∧ "a_tags.json" ≠ "a_tags_tags.json"
    ∧ pathStem "a_tags_tags.json" = "a_tags_tags"
    ∧ find_triplets ["a_tags.json", "a_tags_tags.json", "a.m4a"]
        = [⟨"a.m4a", "a_tags.json", none⟩, ⟨"a.m4a", "a_tags_tags.json", none⟩] :=
  ⟨by decide, by decide, by decide, by decide, by decide⟩

/-- C5 witness: a directory with one sidecar and one audio asset yields the
unit made of that sidecar, that audio file and no cover. -/
theorem claim_C5_witness :
    sidecarMatch "song_tags.json" = true
    ∧ firstExisting ["song_tags.json", "song.m4a"] (base_name_of "song_tags.json") audioExts
        = some "song.m4a"
    ∧ (Triplet.mk "song.m4a" "song_tags.json" none).cover
        = firstExisting ["song_tags.json", "song.m4a"]
            (base_name_of "song_tags.json" ++ "_cover") coverExts := by
  have h := (claim_C5 ["song_tags.json", "song.m4a"]).2.1
    ⟨"song.m4a", "song_tags.json", none⟩ (by decide)
  exact h

/-- C6: once the sidecar has been read, a unit whose audio extension
lower-cases to `.mp3` skips the encoder (no invocation is recorded) and is
tagged in place at its own path; any other unit records an encoder
invocation onto the sibling path `stem + .mp3`, which is also the path used
for tagging. -/
theorem claim_C6 (env : Env) (t : Triplet)
    (hr : ∃ l, env.readTags = some l ∧ l ≠ []) :
    (strToLower (pathSuffix t.audio) = ".mp3" →
      (process_triplet env t).mp3File = some t.audio
      ∧ (process_triplet env t).convertCall = none)
    ∧ (strToLower (pathSuffix t.audio) ≠ ".mp3" →
      (process_triplet env t).mp3File = some (withSuffix t.audio ".mp3")
      ∧ (process_triplet env t).convertCall = some (t.audio, withSuffix t.audio ".mp3")
      ∧ withSuffix t.audio ".mp3" = pathStem t.audio ++ ".mp3") := by
  obtain ⟨l, hl, hne⟩ := hr
  have hle : l.isEmpty = false := by simp [hne]
  constructor
  · intro hm
    cases ht : env.tagOk <;>
      simp [process_triplet, hl, hle, hm, process_after_normalize, ht]
  · intro hm
    cases hc : env.convert with
    | false => simp [process_triplet, hl, hle, hm, hc, withSuffix]
    | true =>
      cases ht : env.tagOk <;>
        simp [process_triplet, hl, hle, hm, hc, process_after_normalize, ht, withSuffix]

/-- C6 witness: a `.flac` unit is converted to and tagged at the `.mp3`
sibling, and the recorded encoder call maps the original onto it. -/
theorem claim_C6_witness :
    (process_triplet envAllOk ⟨"song.flac", "song_tags.json", none⟩).mp3File
        = some "song.mp3"
    ∧ (process_triplet envAllOk ⟨"song.flac", "song_tags.json", none⟩).convertCall
        = some ("song.flac", "song.mp3") := by
  have h := (claim_C6 envAllOk ⟨"song.flac", "song_tags.json", none⟩
    ⟨[recSample], rfl, by decide⟩).2 (by decide)
  have hw : withSuffix "song.flac" ".mp3" = "song.mp3" := by decide
  rw [hw] at h
  exact ⟨h.1, h.2.1⟩

/-- C7: tagging is idempotent — applying a record twice to any tag container
yields the container of a single application — and on a fresh container the
written frames are exactly the program-order frames of the truthy fields:
each present non-empty field contributes exactly one frame under its key,
absent or empty fields contribute none. -/
theorem claim_C7 (t0 : List Frame) (d : MetadataRecord) :
    apply_tags (apply_tags t0 d) d = apply_tags t0 d
    ∧ apply_tags [] d = framesOf d
    ∧ countKey (apply_tags [] d) "TIT2" = (if truthy d.title then 1 else 0)
    ∧ countKey (apply_tags [] d) "TPE1" = (if truthy d.artist then 1 else 0)
    ∧ countKey (apply_tags [] d) "TALB" = (if truthy d.album then 1 else 0)
    ∧ countKey (apply_tags [] d) "TDRC" = (if truthy d.year then 1 else 0)
    ∧ countKey (apply_tags [] d) "TCON" = (if truthy d.genre then 1 else 0)
    ∧ countKey (apply_tags [] d) "COMM::eng" = (if truthy d.comment then 1 else 0) := by
  have hp := framesOf_pairwise d
  have hfresh : apply_tags [] d = framesOf d := by
    rw [apply_tags_eq_foldl]
    rw [ID3.foldl_add_fresh (framesOf d) hp [] fun f _ g hg => absurd hg (List.not_mem_nil g)]
    exact List.nil_append (framesOf d)
  refine ⟨?_, hfresh, ?_, ?_, ?_, ?_, ?_, ?_⟩
  · simp only [apply_tags_eq_foldl]
    exact ID3.foldl_add_idem (framesOf d) hp t0
  all_goals rw [hfresh]
  all_goals unfold countKey framesOf
  all_goals split_ifs <;> rfl

/-- C8: the process exits with status 1 exactly when the directory is
missing or not a directory, and then nothing is matched or processed; in
every other run the exit status is 0 whatever the per-unit outcomes, and a
directory without glob-matched sidecars reports zero units and exits 0. -/
theorem claim_C8 (de isd : Bool) (files : List String) (envOf : Triplet → Env) :
    ((main_run de isd files envOf).exitCode = 1 ↔ de = false ∨ isd = false)
    ∧ (de = false ∨ isd = false → main_run de isd files envOf = ⟨1, 0, 0⟩)
    ∧ (de = true → isd = true → (main_run de isd files envOf).exitCode = 0)
    ∧ (de = true → isd = true → files.filter sidecarMatch = [] →
        main_run de isd files envOf = ⟨0, 0, 0⟩) := by
  cases de with
  | false => simp [main_run]
  | true =>
    cases isd with
    | false => simp [main_run]
    | true =>
      by_cases he : (find_triplets files).isEmpty = true
      · simp [main_run, he]
      · have hne : ∀ _ : files.filter sidecarMatch = [], False := fun hf => by
          apply he
          rw [find_triplets, hf]
          rfl
        exact ⟨by simp [main_run, he], by simp, fun _ _ => by simp [main_run, he],
          fun _ _ hf => (hne hf).elim⟩

/-- C8 witness: a missing directory exits 1 with nothing processed; an
existing directory with no sidecar exits 0 with zero units. -/
theorem claim_C8_witness :
    main_run false true ["song_tags.json", "song.m4a"] (fun _ => envAllOk) = ⟨1, 0, 0⟩
    ∧ main_run true true ["readme.txt"] (fun _ => envAllOk) = ⟨0, 0, 0⟩ :=
  ⟨(claim_C8 false true ["song_tags.json", "song.m4a"] fun _ => envAllOk).2.1 (Or.inl rfl),
   (claim_C8 true true ["readme.txt"] fun _ => envAllOk).2.2.2 rfl rfl (by decide)⟩

/-- C10: when a base with a `.m4a` (or, failing that, `.mp4`) sibling also
has a pre-existing distinct `.mp3` sibling, the matcher selects the non-mp3
file, the pipeline's conversion target is exactly the pre-existing `.mp3`
path, the encoder command carries the overwrite flag `-y` with that path as
its final argument, and a fully successful run deletes the selected
original — so the pre-existing `.mp3` file is overwritten, not preserved. -/
theorem claim_C10 (files : List String) (b : String) (env : Env) (hb : b ≠ "")
    (hr : ∃ l, env.readTags = some l ∧ l ≠ []) (hc : env.convert = true)
    (ht : env.tagOk = true) (hu : ∀ p, env.unlinkOk p = true)
    (he : env.audioExistsAtCleanup = true) :
    (b ++ ".m4a" ∈ files → firstExisting files b audioExts = some (b ++ ".m4a"))
    ∧ (b ++ ".m4a" ∉ files → b ++ ".mp4" ∈ files →
        firstExisting files b audioExts = some (b ++ ".mp4"))
    ∧ b ++ ".m4a" ≠ b ++ ".mp3"
    ∧ withSuffix (b ++ ".m4a") ".mp3" = b ++ ".mp3"
    ∧ withSuffix (b ++ ".mp4") ".mp3" = b ++ ".mp3"
    ∧ "-y" ∈ convert_cmd (b ++ ".m4a") (b ++ ".mp3")
    ∧ (convert_cmd (b ++ ".m4a") (b ++ ".mp3")).getLast? = some (b ++ ".mp3")
    ∧ ∀ tagsF cover,
        (process_triplet env ⟨b ++ ".m4a", tagsF, cover⟩).success = true
        ∧ (process_triplet env ⟨b ++ ".m4a", tagsF, cover⟩).mp3File = some (b ++ ".mp3")
        ∧ (process_triplet env ⟨b ++ ".m4a", tagsF, cover⟩).convertCall
            = some (b ++ ".m4a", b ++ ".mp3")
        ∧ (b ++ ".m4a", true) ∈ (process_triplet env ⟨b ++ ".m4a", tagsF, cover⟩).attempts := by
  have hne : b ++ ".m4a" ≠ b ++ ".mp3" := append_right_ne b (by decide)
  have hw4 : withSuffix (b ++ ".m4a") ".mp3" = b ++ ".mp3" :=
    withSuffix_of_simple b ".m4a" hb isSimpleExt_m4a
  have hwp : withSuffix (b ++ ".mp4") ".mp3" = b ++ ".mp3" :=
    withSuffix_of_simple b ".mp4" hb isSimpleExt_mp4
  refine ⟨fun h => firstExisting_head files b ".m4a" [".mp4", ".mp3", ".flac"] h,
    fun h1 h2 => ?_, hne, hw4, hwp, by simp [convert_cmd], rfl, ?_⟩
  · show firstExisting files b [".m4a", ".mp4", ".mp3", ".flac"] = some (b ++ ".mp4")
    rw [firstExisting, if_neg h1]
    exact firstExisting_head files b ".mp4" [".mp3", ".flac"] h2
  · intro tagsF cover
    have hsuffix : pathSuffix (b ++ ".m4a") = ".m4a" :=
      (pathStem_pathSuffix_append b ".m4a" hb isSimpleExt_m4a).2
    have hm : ¬ strToLower (pathSuffix (b ++ ".m4a")) = ".mp3" := by
      rw [hsuffix]
      decide
    have hnp : normalizedPath ⟨b ++ ".m4a", tagsF, cover⟩ = b ++ ".mp3" := by
      show (if strToLower (pathSuffix (b ++ ".m4a")) = ".mp3" then b ++ ".m4a"
        else withSuffix (b ++ ".m4a") ".mp3") = b ++ ".mp3"
      rw [if_neg hm, hw4]
    rw [process_reach_cleanup env ⟨b ++ ".m4a", tagsF, cover⟩ hr (Or.inr hc) ht]
    refine ⟨rfl, ?_, ?_, ?_⟩
    · show some (normalizedPath ⟨b ++ ".m4a", tagsF, cover⟩) = some (b ++ ".mp3")
      rw [hnp]
    · show (if strToLower (pathSuffix (b ++ ".m4a")) = ".mp3" then none
        else some (b ++ ".m4a", withSuffix (b ++ ".m4a") ".mp3"))
          = some (b ++ ".m4a", b ++ ".mp3")
      rw [if_neg hm, hw4]
    · show (b ++ ".m4a", true) ∈ cleanup_attempts env tagsF cover (b ++ ".m4a")
        (normalizedPath ⟨b ++ ".m4a", tagsF, cover⟩)
      rw [hnp]
      unfold cleanup_attempts cleanupOriginal
      cases cover <;> simp [hu, hne, he]

/-- C7 witness: the sample record (title and artist present, genre empty)
is idempotent on the fresh container and writes one title frame and no
genre frame. -/
theorem claim_C7_witness :
    apply_tags (apply_tags [] recSample) recSample = apply_tags [] recSample
    ∧ countKey (apply_tags [] recSample) "TIT2" = 1
    ∧ countKey (apply_tags [] recSample) "TCON" = 0 := by
  have h := claim_C7 [] recSample
  refine ⟨h.1, ?_, ?_⟩
  · rw [h.2.2.1]
    decide
  · rw [h.2.2.2.2.2.2.1]
    decide

/-- C10 witness: with `song.m4a` and a pre-existing `song.mp3` both present,
a fully successful run tags at `song.mp3` after an encoder call targeting it
and deletes `song.m4a`. -/
theorem claim_C10_witness :
    (process_triplet envAllOk ⟨"song.m4a", "song_tags.json", none⟩).success = true
    ∧ (process_triplet envAllOk ⟨"song.m4a", "song_tags.json", none⟩).mp3File
        = some "song.mp3"
    ∧ (process_triplet envAllOk ⟨"song.m4a", "song_tags.json", none⟩).convertCall
        = some ("song.m4a", "song.mp3")
    ∧ ("song.m4a", true) ∈
        (process_triplet envAllOk ⟨"song.m4a", "song_tags.json", none⟩).attempts := by
  have h := (claim_C10 ["song.m4a", "song.mp3"] "song" envAllOk (by decide)
    ⟨[recSample], rfl, by decide⟩ rfl rfl (fun _ => rfl) rfl).2.2.2.2.2.2.2
    "song_tags.json" none
  have e1 : "song" ++ ".m4a" = "song.m4a" := rfl
  have e2 : "song" ++ ".mp3" = "song.mp3" := rfl
  rw [e1, e2] at h
  exact h

end Suno
